import Mathlib

/-!
Shallow embedding of the Repyable reliable-UDP endpoint
(`src/repyable/endpoint.py`), its circular buffer
(`src/repyable/circular_buffer.py`) and the network-condition simulator
(`src/tests/util/real_world_socket.py`), together with theorems checking
the natural-language specification against this code.

Bytes are modelled as `Nat` (all wire values produced by the code are
`< 256`); byte strings as `List Nat`; wall-clock time (`time.time()`)
as a `ℚ` parameter `now` passed to each function that reads the clock;
Python floats as `ℚ`; the Python `dict` keyed by sequence number as an
association list.  A Python exception that can escape a modelled function
makes the model return `Except PyError`.
-/

namespace Repyable

/-- Python exceptions that the embedded code can raise. -/
inductive PyError where
  | structError : PyError
  | indexError : PyError
  deriving DecidableEq, Repr

/-- `Packet` NamedTuple from `endpoint.py`: `(sequence, data, send_time)`. -/
structure Packet where
  sequence : Nat
  data : List Nat
  send_time : ℚ
  deriving DecidableEq, Repr

/-- Association-list model of a Python `dict` lookup `d.get(k)`. -/
def dictGet (d : List (Nat × List (Option (List Nat)))) (k : Nat) :
    Option (List (Option (List Nat))) :=
  (d.find? (fun p => p.1 == k)).map Prod.snd

/-- Association-list model of `d[k] = v`: replace the binding if present,
otherwise append it. -/
def dictSet (d : List (Nat × List (Option (List Nat)))) (k : Nat)
    (v : List (Option (List Nat))) : List (Nat × List (Option (List Nat))) :=
  if (d.find? (fun p => p.1 == k)).isSome then
    d.map (fun p => if p.1 == k then (k, v) else p)
  else d ++ [(k, v)]

/-- Association-list model of `del d[k]`. -/
def dictErase (d : List (Nat × List (Option (List Nat)))) (k : Nat) :
    List (Nat × List (Option (List Nat))) :=
  d.filter (fun p => p.1 ≠ k)

/-- Mutable state of `ReliableEndpoint` (the fields of `__init__` that the
claims touch), plus two observation logs: `sentDatagrams` records every
byte string handed to `sock.sendto`, and `delivered` records every payload
passed to `process_packet_callback`. -/
structure Endpoint where
  maxPacketSize : Nat
  fragmentAbove : Nat
  maxFragments : Nat
  fragmentSize : Nat
  ackBufferSize : Nat
  sentBufSize : Nat
  recvBufSize : Nat
  rttSmoothing : ℚ
  sequence : Nat
  acks : List Nat
  sentPackets : List (Option Packet)
  receivedPackets : List (Option Packet)
  fragments : List (Nat × List (Option (List Nat)))
  rtt : ℚ
  running : Bool
  sentDatagrams : List (List Nat)
  delivered : List (List Nat)
  deriving DecidableEq, Repr

/-- `ReliableEndpoint.__init__`: fresh endpoint state for the given
configuration (buffers empty, `sequence = 0`, `rtt = 0`,
`running = False`). -/
def initEndpoint (maxPacketSize fragmentAbove maxFragments fragmentSize
    ackBufferSize sentBufSize recvBufSize : Nat) (rttSmoothing : ℚ) :
    Endpoint where
  maxPacketSize := maxPacketSize
  fragmentAbove := fragmentAbove
  maxFragments := maxFragments
  fragmentSize := fragmentSize
  ackBufferSize := ackBufferSize
  sentBufSize := sentBufSize
  recvBufSize := recvBufSize
  rttSmoothing := rttSmoothing
  sequence := 0
  acks := []
  sentPackets := List.replicate sentBufSize none
  receivedPackets := List.replicate recvBufSize none
  fragments := []
  rtt := 0
  running := false
  sentDatagrams := []
  delivered := []

/-- The endpoint with the default constructor arguments of
`ReliableEndpoint.__init__`. -/
def defaultEndpoint : Endpoint :=
  initEndpoint 1200 1000 16 500 32 256 256 (1/10)

/-- `MAX_ACK_BITS` class constant. -/
def MAX_ACK_BITS : Nat := 32

/-- `SEQUENCE_MODULO` class constant. -/
def SEQUENCE_MODULO : Nat := 65536

/-- `struct.pack("!HHI", sequence, ack, ack_bits)`: 8 big-endian bytes.
(`struct.pack` additionally requires `sequence, ack < 2^16` and
`ack_bits < 2^32`; every use below satisfies this.) -/
def packHHI (sequence ack ackBits : Nat) : List Nat :=
  [sequence / 256 % 256, sequence % 256,
   ack / 256 % 256, ack % 256,
   ackBits / 2^24 % 256, ackBits / 2^16 % 256, ackBits / 2^8 % 256,
   ackBits % 256]

/-- `struct.pack("!HHIBB", sequence, ack, ack_bits, i, total)`: the 10-byte
fragment header of `_send_fragmented`. -/
def packHHIBB (sequence ack ackBits fragId total : Nat) : List Nat :=
  packHHI sequence ack ackBits ++ [fragId, total]

/-- `struct.unpack("!HHI", data[:8])` followed by `payload = data[8:]`, the
header parse of `_process_received_data`.  `struct.unpack` raises
`struct.error` when `data[:8]` is shorter than 8 bytes; that case is
`none`. -/
def decodeHeader (data : List Nat) : Option (Nat × Nat × Nat × List Nat) :=
  if data.length < 8 then none
  else
    some (data.getD 0 0 * 256 + data.getD 1 0,
          data.getD 2 0 * 256 + data.getD 3 0,
          data.getD 4 0 * 2^24 + data.getD 5 0 * 2^16 +
            data.getD 6 0 * 2^8 + data.getD 7 0,
          data.drop 8)

/-- `ReliableEndpoint._get_ack_data`, as a function of `self.acks`:
`0, 0` on an empty history, otherwise `ack = self.acks[-1]` and a fold of
`ack_bits |= 1 << ((ack - seq) % MAX_ACK_BITS)` over
`enumerate(reversed(self.acks))`, stopping at `i >= MAX_ACK_BITS` and
guarded by `(ack - seq) % SEQUENCE_MODULO < MAX_ACK_BITS`.  Python's `%`
on a possibly negative dividend with positive modulus matches `Int.emod`.
`ackBitsStep` is one iteration of that loop. -/
def ackBitsStep (ack : Nat) (b : Nat) (seq : Nat) : Nat :=
  if ((ack : Int) - seq) % (SEQUENCE_MODULO : Int) < MAX_ACK_BITS then
    b ||| (1 <<< ((((ack : Int) - seq) % (MAX_ACK_BITS : Int)).toNat))
  else b

/-- `ReliableEndpoint._get_ack_data` itself, as a function of `self.acks`. -/
def getAckData (acks : List Nat) : Nat × Nat :=
  match acks.getLast? with
  | none => (0, 0)
  | some ack =>
    (ack, (acks.reverse.take MAX_ACK_BITS).foldl (ackBitsStep ack) 0)

/-- `ReliableEndpoint._next_sequence`: return the current sequence and
advance it modulo 65536. -/
def nextSequence (st : Endpoint) : Nat × Endpoint :=
  (st.sequence, { st with sequence := (st.sequence + 1) % 65536 })

/-- `ReliableEndpoint._update_stats`: exponentially smooth the RTT with the
sample `current_time - acked_packet.send_time`. -/
def updateStats (now : ℚ) (st : Endpoint) (ackedPacket : Packet) : Endpoint :=
  let rtt := now - ackedPacket.send_time
  { st with rtt := st.rtt * (1 - st.rttSmoothing) + rtt * st.rttSmoothing }

/-- One iteration of the `for i in range(32)` loop of
`ReliableEndpoint._process_acks`. -/
def processAcksStep (now : ℚ) (ack ackBits : Nat) (s : Endpoint) (i : Nat) :
    Endpoint :=
  if ackBits.testBit i then
    let ackedSequence := ((((ack : Int) - i) % 65536).toNat)
    match s.sentPackets.getD (ackedSequence % s.sentBufSize) none with
    | some sentPacket =>
      if sentPacket.sequence = ackedSequence then
        updateStats now s sentPacket
      else s
    | none => s
  else s

/-- `ReliableEndpoint._process_acks`: for each bit `i` set in `ack_bits`,
look up `(ack - i) % 65536` in the sent-packet ring and feed an RTT sample
whenever the slot holds a packet with that exact sequence.  (A `Packet`
NamedTuple is always truthy, so `if sent_packet` is just the `None`
check.) -/
def processAcks (now : ℚ) (st : Endpoint) (ack ackBits : Nat) : Endpoint :=
  (List.range 32).foldl (processAcksStep now ack ackBits) st

/-- `ReliableEndpoint._process_packet`: invoke the user callback; when it
returns `True`, store the packet in the received ring and append the
sequence to `self.acks`, popping the oldest entry when the history exceeds
`ack_buffer_size`.  `delivered` logs the callback invocation. -/
def processPacket (cb : List Nat → Bool) (now : ℚ) (st : Endpoint)
    (sequence : Nat) (data : List Nat) : Endpoint :=
  let st := { st with delivered := st.delivered ++ [data] }
  if cb data then
    let st := { st with
      receivedPackets := st.receivedPackets.set (sequence % st.recvBufSize)
        (some ⟨sequence, data, now⟩) }
    let acks := st.acks ++ [sequence]
    let acks := if st.ackBufferSize < acks.length then acks.drop 1 else acks
    { st with acks := acks }
  else st

/-- Python truthiness of an optional byte string: `None` and `b""` are
falsy.  This is the per-slot test of `all(self.fragments[sequence])`. -/
def fragTruthy (o : Option (List Nat)) : Bool :=
  match o with
  | none => false
  | some b => !b.isEmpty

/-- `ReliableEndpoint._process_fragment`: parse the 2-byte
`(fragment_id, total_fragments)` sub-header, create the assembly on first
contact, store the part at `fragment_id` (an out-of-range id raises
`IndexError`), and when every slot is truthy, join the parts, delete the
assembly and hand the result to `_process_packet`. -/
def processFragment (cb : List Nat → Bool) (now : ℚ) (st : Endpoint)
    (sequence : Nat) (data : List Nat) : Except PyError Endpoint :=
  if data.length < 2 then .error .structError
  else
    let fragmentId := data.getD 0 0
    let totalFragments := data.getD 1 0
    let fragmentData := data.drop 2
    let assembly :=
      match dictGet st.fragments sequence with
      | none => List.replicate totalFragments none
      | some a => a
    if assembly.length ≤ fragmentId then .error .indexError
    else
      let assembly := assembly.set fragmentId (some fragmentData)
      let st := { st with fragments := dictSet st.fragments sequence assembly }
      if assembly.all fragTruthy then
        let completeData := assembly.foldr (fun o acc => o.getD [] ++ acc) []
        let st := { st with fragments := dictErase st.fragments sequence }
        .ok (processPacket cb now st sequence completeData)
      else .ok st

/-- `ReliableEndpoint._process_received_data`: decode the 8-byte header
(`struct.error` escapes on short datagrams), classify the payload by
`len(payload) > fragment_above`, then process the piggybacked acks. -/
def processReceivedData (cb : List Nat → Bool) (now : ℚ) (st : Endpoint)
    (data : List Nat) : Except PyError Endpoint :=
  match decodeHeader data with
  | none => .error .structError
  | some (sequence, ack, ackBits, payload) =>
    if st.fragmentAbove < payload.length then
      match processFragment cb now st sequence payload with
      | .error e => .error e
      | .ok st => .ok (processAcks now st ack ackBits)
    else
      .ok (processAcks now (processPacket cb now st sequence payload) ack ackBits)

/-- The slices `data[i : i + size]` for `i in range(0, len(data), size)`.
(`range` with a zero step raises `ValueError` in Python; `size = 0` is
never used by the code, whose `fragment_size` is positive.) -/
def chunks (size : Nat) (data : List Nat) : List (List Nat) :=
  if h : size = 0 ∨ data = [] then []
  else data.take size :: chunks size (data.drop size)
termination_by data.length
decreasing_by
  simp only [not_or] at h
  have hd : data.length ≠ 0 := fun hz => h.2 (List.eq_nil_of_length_eq_zero hz)
  simp only [List.length_drop]
  omega

/-- `ReliableEndpoint._send_single`: allocate a sequence, prepend the
`!HHI` header with the current ack data, transmit, and record the payload
in the sent ring. -/
def sendSingle (now : ℚ) (st : Endpoint) (data : List Nat) : Endpoint :=
  let sequence := (nextSequence st).1
  let st1 := (nextSequence st).2
  let ack := (getAckData st1.acks).1
  let ackBits := (getAckData st1.acks).2
  let packet := packHHI sequence ack ackBits ++ data
  let st2 := { st1 with sentDatagrams := st1.sentDatagrams ++ [packet] }
  { st2 with
    sentPackets := st2.sentPackets.set (sequence % st2.sentBufSize)
      (some ⟨sequence, data, now⟩) }

/-- One iteration of the `for i, fragment in enumerate(fragments)` loop of
`ReliableEndpoint._send_fragmented` (`total` is `len(fragments)`; the ack
data is re-read from `self.acks` on every iteration, as in the source). -/
def sendFragmentedStep (sequence total : Nat) (s : Endpoint)
    (p : Nat × List Nat) : Endpoint :=
  let ack := (getAckData s.acks).1
  let ackBits := (getAckData s.acks).2
  let header := packHHIBB sequence ack ackBits p.1 total
  { s with sentDatagrams := s.sentDatagrams ++ [header ++ p.2] }

/-- `ReliableEndpoint._send_fragmented`: allocate one sequence, slice the
payload into `fragment_size` chunks, transmit each behind a `!HHIBB`
header, then record the full payload once in the sent ring. -/
def sendFragmented (now : ℚ) (st : Endpoint) (data : List Nat) : Endpoint :=
  let sequence := (nextSequence st).1
  let st1 := (nextSequence st).2
  let fragments := chunks st1.fragmentSize data
  let st2 := fragments.enum.foldl (sendFragmentedStep sequence fragments.length) st1
  { st2 with
    sentPackets := st2.sentPackets.set (sequence % st2.sentBufSize)
      (some ⟨sequence, data, now⟩) }

/-- `ReliableEndpoint.send_packet`: fragment exactly when
`len(data) > max_packet_size`. -/
def sendPacket (now : ℚ) (st : Endpoint) (data : List Nat) : Endpoint :=
  if st.maxPacketSize < data.length then sendFragmented now st data
  else sendSingle now st data

/-- The post-header bytes of the `i`-th fragment datagram that
`_send_fragmented` produces for the fragment list `frags`:
`[fragment_id, total_fragments]` followed by the fragment bytes — exactly
what `_process_fragment` receives as its `data`. -/
def mkFrag (frags : List (List Nat)) (i : Nat) : List Nat :=
  i :: frags.length :: frags.getD i []

/-- Delivering a list of fragment datagram payloads to
`_process_fragment` one after the other, stopping at the first escaping
exception — the receive-side experiment of the fragmentation round-trip
property. -/
def feedFragments (cb : List Nat → Bool) (now : ℚ) (st : Endpoint)
    (sequence : Nat) (datas : List (List Nat)) : Except PyError Endpoint :=
  match datas with
  | [] => .ok st
  | d :: rest =>
    match processFragment cb now st sequence d with
    | .error e => .error e
    | .ok st1 => feedFragments cb now st1 sequence rest

/-- The assembly list `self.fragments[sequence]` after the fragments with
ids in `S` (out of `frags`) have been stored: slot `j` holds fragment `j`
iff `j ∈ S`. -/
def asmOf (frags : List (List Nat)) (S : List Nat) :
    List (Option (List Nat)) :=
  (List.range frags.length).map
    (fun j => if j ∈ S then some (frags.getD j []) else none)

/-! ### Circular buffer (`src/repyable/circular_buffer.py`) -/

/-- State of a `CircularBuffer` object: the fields of `__init__`. -/
structure CircularBuffer (T : Type) where
  buffer : List (Option T)
  size : Nat
  head : Nat
  tail : Nat
  count : Nat
  deriving DecidableEq

/-- `CircularBuffer.__init__(size)`. -/
def CircularBuffer.init (T : Type) (size : Nat) : CircularBuffer T where
  buffer := List.replicate size none
  size := size
  head := 0
  tail := 0
  count := 0

/-- `CircularBuffer.push`: write at `head`, advance `head` modulo `size`;
grow `count` while below capacity, otherwise advance `tail` (evicting the
slot just overwritten). -/
def CircularBuffer.push {T : Type} (s : CircularBuffer T) (item : T) :
    CircularBuffer T :=
  let buffer := s.buffer.set s.head (some item)
  let head := (s.head + 1) % s.size
  if s.count < s.size then
    { s with buffer := buffer, head := head, count := s.count + 1 }
  else
    { s with buffer := buffer, head := head, tail := (s.tail + 1) % s.size }

/-- `CircularBuffer.pop`: `None` when empty, otherwise the item at `tail`,
with `tail` advanced and `count` decremented. -/
def CircularBuffer.pop {T : Type} (s : CircularBuffer T) :
    Option T × CircularBuffer T :=
  if s.count = 0 then (none, s)
  else (s.buffer.getD s.tail none,
    { s with tail := (s.tail + 1) % s.size, count := s.count - 1 })

/-- `list(buffer)` via `__iter__`/`__getitem__`: the slots at offsets
`0 .. count-1` from `tail` (each asserted non-`None` by `__getitem__`,
hence modelled as the raw `Option` contents). -/
def CircularBuffer.toList {T : Type} (s : CircularBuffer T) :
    List (Option T) :=
  (List.range s.count).map (fun i => s.buffer.getD ((s.tail + i) % s.size) none)

/-- Abstraction relation: the buffer represents the list `l` of retained
items, oldest first — `count` items starting at `tail`, with `head` one
past the newest modulo `size`. -/
def CBRepr {T : Type} (s : CircularBuffer T) (l : List T) : Prop :=
  s.buffer.length = s.size ∧ 0 < s.size ∧ s.count = l.length ∧
  l.length ≤ s.size ∧ s.tail < s.size ∧
  s.head = (s.tail + s.count) % s.size ∧
  ∀ i, i < l.length → s.buffer.getD ((s.tail + i) % s.size) none = l.get? i

instance {T : Type} [DecidableEq T] (s : CircularBuffer T) (l : List T) :
    Decidable (CBRepr s l) := by
  unfold CBRepr
  infer_instance

/-! ### Network-condition simulator (`src/tests/util/real_world_socket.py`) -/

/-- `MIN_LATENCY` module constant (0.0015 s; floats are modelled as `ℚ`). -/
def MIN_LATENCY : ℚ := 3/2000

/-- What a `RealWorldUDPSocket` send method does with a datagram. -/
inductive SendAction where
  | dropped : SendAction
  | inline : SendAction
  | scheduled : SendAction
  deriving DecidableEq, Repr

namespace RealWorldUDPSocket

/-- `RealWorldUDPSocket.send`, with the drawn `random.random()` sample `u`
and the value of `self._simulate_latency()` made explicit arguments.  The
early-return branch (nothing transmitted nor scheduled) is taken when
`not u <= self._packet_loss_rate`; otherwise the datagram goes out inline
when `latency < MIN_LATENCY` and is scheduled otherwise.  The `int`
returned is always `len(data)`. -/
def send (u lossRate latency : ℚ) (dataLen : Nat) : SendAction × Nat :=
  if ¬ (u ≤ lossRate) then (.dropped, dataLen)
  else if latency < MIN_LATENCY then (.inline, dataLen)
  else (.scheduled, dataLen)

/-- `RealWorldUDPSocket.sendto`, same conventions as `send`; here
`latency` stands for `self._simulate_latency() + delay` and the drop
branch is taken when `u <= self._packet_loss_rate`. -/
def sendto (u lossRate latency : ℚ) (dataLen : Nat) : SendAction × Nat :=
  if u ≤ lossRate then (.dropped, dataLen)
  else if latency < MIN_LATENCY then (.inline, dataLen)
  else (.scheduled, dataLen)

end RealWorldUDPSocket

/-! ### Theorems (claims C2, C3, C6, C7, C9) -/

/-- C9: for all `seq`, `ack` in `[0, 65536)`, `ack_bits` in `[0, 2^32)`
and every payload, decoding the wire bytes produced by single-packet
encoding (the 8-byte big-endian `!HHI` header of `_send_single` followed
by the payload, parsed back by `_process_received_data`) yields exactly
`(seq, ack, ack_bits, payload)`. -/
theorem C9_header_round_trip (seq ack ackBits : Nat) (payload : List Nat)
    (h1 : seq < 65536) (h2 : ack < 65536) (h3 : ackBits < 2^32) :
    decodeHeader (packHHI seq ack ackBits ++ payload) =
      some (seq, ack, ackBits, payload) := by
  have e1 : seq / 256 % 256 * 256 + seq % 256 = seq := by omega
  have e2 : ack / 256 % 256 * 256 + ack % 256 = ack := by omega
  have e3 : ackBits / 2^24 % 256 * 2^24 + ackBits / 2^16 % 256 * 2^16 +
      ackBits / 2^8 % 256 * 2^8 + ackBits % 256 = ackBits := by omega
  simp only [decodeHeader, packHHI, List.cons_append, List.nil_append,
    List.length_cons, List.getD_cons_zero, List.getD_cons_succ,
    List.drop_succ_cons, List.drop_zero]
  rw [if_neg (by omega)]
  rw [e1, e2, e3]

/-- C9 witness: the round trip at a concrete header and payload. -/
theorem C9_header_round_trip_witness :
    65535 < 65536 ∧ 1 < 65536 ∧ 4294967295 < 2^32 ∧
      decodeHeader (packHHI 65535 1 4294967295 ++ [7, 8]) =
        some (65535, 1, 4294967295, [7, 8]) :=
  ⟨by norm_num, by norm_num, by norm_num,
    C9_header_round_trip 65535 1 4294967295 [7, 8] (by norm_num) (by norm_num)
      (by norm_num)⟩

/-- C3: the claim says a datagram shorter than 8 bytes is discarded with a
malformed counter incremented and no exception escaping.  The code has no
malformed counter; `struct.unpack("!HHI", data[:8])` raises `struct.error`
on such a datagram, and `_receive_loop` catches only `TimeoutError`, so
the exception escapes and kills the receive loop.  This theorem evaluates
the code at the failing inputs: every datagram shorter than 8 bytes makes
`_process_received_data` raise. -/
theorem C3_short_datagram_raises (cb : List Nat → Bool) (now : ℚ)
    (st : Endpoint) (data : List Nat) (h : data.length < 8) :
    processReceivedData cb now st data = .error .structError := by
  simp [processReceivedData, decodeHeader, h]

/-- C3 witness: a 3-byte datagram raises `struct.error`. -/
theorem C3_short_datagram_raises_witness :
    ([1, 2, 3] : List Nat).length < 8 ∧
      processReceivedData (fun _ => true) 0 defaultEndpoint [1, 2, 3] =
        .error .structError :=
  ⟨by decide, C3_short_datagram_raises (fun _ => true) 0 defaultEndpoint
    [1, 2, 3] (by decide)⟩

/-- C7: the claim says `send` outside the `Running` state fails with
`NotRunning`, transmits nothing and leaves the state unchanged.  The code
never checks `self.running` in `send_packet`: on a freshly constructed
endpoint (`running = False`, `start()` not called) a send transmits the
datagram, advances the sequence counter and records the packet in the
sent window. -/
theorem C7_send_ignores_not_running :
    defaultEndpoint.running = false ∧
    (sendPacket 0 defaultEndpoint [104, 105]).sentDatagrams =
      [[0, 0, 0, 0, 0, 0, 0, 0, 104, 105]] ∧
    (sendPacket 0 defaultEndpoint [104, 105]).sequence = 1 ∧
    (sendPacket 0 defaultEndpoint [104, 105]).sentPackets.getD 0 none =
      some ⟨0, [104, 105], 0⟩ := by
  refine ⟨rfl, rfl, rfl, rfl⟩

/-- A fold whose body fixes every element of the list is the identity. -/
theorem foldl_fixed_of_mem {α β : Type} (g : α → β → α) (l : List β) (s : α)
    (h : ∀ b ∈ l, ∀ a, g a b = a) : l.foldl g s = s := by
  induction l generalizing s with
  | nil => rfl
  | cons b t ih =>
    rw [List.foldl_cons, h b (by simp), ih]
    intro c hc a
    exact h c (by simp [hc]) a

/-- `_process_acks` with `ack_bits = 1` and a matching record in the sent
window reduces to a single `_update_stats` call. -/
theorem processAcks_bit0 (now : ℚ) (st : Endpoint) (ack : Nat) (p : Packet)
    (hack : ack < 65536)
    (hget : st.sentPackets.getD (ack % st.sentBufSize) none = some p)
    (hseq : p.sequence = ack) :
    processAcks now st ack 1 = updateStats now st p := by
  have hcast : ((((ack : Int) - ((0 : Nat) : Int)) % 65536).toNat) = ack := by
    omega
  have hstep : processAcksStep now ack 1 st 0 = updateStats now st p := by
    unfold processAcksStep
    rw [if_pos (by decide)]
    simp only [hcast, hget, hseq, if_pos rfl]
    simp
  unfold processAcks
  rw [show (32 : Nat) = 31 + 1 from rfl, List.range_succ_eq_map,
    List.foldl_cons, hstep]
  refine foldl_fixed_of_mem _ _ _ ?_
  intro b hb a
  rcases List.mem_map.mp hb with ⟨i, _, rfl⟩
  have hbit : (1 : Nat).testBit i.succ = false := by
    rw [show (1 : Nat) = 2 ^ 0 from rfl]
    exact Nat.testBit_two_pow_of_ne (by omega)
  simp [processAcksStep, hbit]

/-- C6: the claim says a sent record is marked acked on the first covering
ack and feeds exactly one RTT sample, later covering acks leaving the RTT
estimate unchanged.  `Packet` has no `acked` flag and `_process_acks`
feeds an RTT sample on every covering ack: processing the same ack header
`(latest_ack = 0, ack_bits = 1)` twice over a window holding sequence 0
moves the smoothed RTT from 1/10 to 19/100. -/
theorem C6_duplicate_ack_refeeds_rtt :
    (processAcks 1 { defaultEndpoint with
        sentPackets := defaultEndpoint.sentPackets.set 0 (some ⟨0, [120], 0⟩) }
      0 1).rtt = 1/10 ∧
    (processAcks 1 (processAcks 1 { defaultEndpoint with
        sentPackets := defaultEndpoint.sentPackets.set 0 (some ⟨0, [120], 0⟩) }
      0 1) 0 1).rtt = 19/100 := by
  set st0 : Endpoint := { defaultEndpoint with
    sentPackets := defaultEndpoint.sentPackets.set 0 (some ⟨0, [120], 0⟩) }
    with hst0
  have hget0 : st0.sentPackets.getD (0 % st0.sentBufSize) none =
      some ⟨0, [120], 0⟩ := by
    rw [hst0]; decide
  have h1 : processAcks 1 st0 0 1 = updateStats 1 st0 ⟨0, [120], 0⟩ :=
    processAcks_bit0 1 st0 0 ⟨0, [120], 0⟩ (by norm_num) hget0 rfl
  have hrtt0 : st0.rtt = 0 := by rw [hst0]; rfl
  have hsm : st0.rttSmoothing = 1/10 := by rw [hst0]; rfl
  have hr1 : (processAcks 1 st0 0 1).rtt = 1/10 := by
    rw [h1]; simp only [updateStats]
    norm_num [defaultEndpoint, initEndpoint]
  refine ⟨hr1, ?_⟩
  have hmem1 : (processAcks 1 st0 0 1).sentPackets = st0.sentPackets := by
    rw [h1]; rfl
  have hbuf1 : (processAcks 1 st0 0 1).sentBufSize = st0.sentBufSize := by
    rw [h1]; rfl
  have hsm1 : (processAcks 1 st0 0 1).rttSmoothing = 1/10 := by
    rw [h1]; exact hsm
  have h2 : processAcks 1 (processAcks 1 st0 0 1) 0 1 =
      updateStats 1 (processAcks 1 st0 0 1) ⟨0, [120], 0⟩ :=
    processAcks_bit0 1 _ 0 ⟨0, [120], 0⟩ (by norm_num)
      (by rw [hmem1, hbuf1]; exact hget0) rfl
  rw [h2]; simp only [updateStats, hr1, hsm1]; norm_num

/-- C2: the claim says both `send` and `sendto` drop exactly when the
drawn sample satisfies `u ≤ loss_rate`, so with `loss_rate = 1.0` neither
ever transmits.  `sendto` behaves that way, but `send` negates the test
(`if not random.random() <= self._packet_loss_rate`): at `u = 1/2`,
`loss_rate = 1`, `send` transmits inline while `sendto` drops, and with
`loss_rate = 1` `send` never drops at all. -/
theorem C2_send_loss_condition_inverted :
    RealWorldUDPSocket.send (1/2) 1 0 10 = (.inline, 10) ∧
    RealWorldUDPSocket.sendto (1/2) 1 0 10 = (.dropped, 10) ∧
    (∀ u : ℚ, 0 ≤ u → u < 1 →
      (RealWorldUDPSocket.send u 1 0 10).1 ≠ .dropped) := by
  refine ⟨?_, ?_, ?_⟩
  · norm_num [RealWorldUDPSocket.send, MIN_LATENCY]
  · norm_num [RealWorldUDPSocket.sendto, MIN_LATENCY]
  · intro u h0 h1
    have hle : u ≤ 1 := le_of_lt h1
    norm_num [RealWorldUDPSocket.send, MIN_LATENCY, hle]
    decide

/-- C2 witness: a concrete surviving sample for the universally
quantified part. -/
theorem C2_send_loss_condition_inverted_witness :
    (0 : ℚ) ≤ 1/3 ∧ (1/3 : ℚ) < 1 ∧
      (RealWorldUDPSocket.send (1/3) 1 0 10).1 ≠ .dropped :=
  ⟨by norm_num, by norm_num,
    C2_send_loss_condition_inverted.2.2 (1/3) (by norm_num) (by norm_num)⟩

/-- `chunks` on the empty byte string is empty. -/
theorem chunks_eq_nil (size : Nat) : chunks size [] = [] := by
  unfold chunks
  simp

/-- Unfolding equation for `chunks` on a nonempty byte string. -/
theorem chunks_eq_cons (size : Nat) (data : List Nat) (hs : size ≠ 0)
    (hd : data ≠ []) :
    chunks size data = data.take size :: chunks size (data.drop size) := by
  conv_lhs => rw [chunks]
  rw [dif_neg (not_or.mpr ⟨hs, hd⟩)]

/-- `len(data)` bytes split into `size`-byte slices give
`ceil(len / size)` slices. -/
theorem chunks_length (size : Nat) (hs : 0 < size) (data : List Nat) :
    (chunks size data).length = (data.length + size - 1) / size := by
  generalize hn : data.length = n
  induction n using Nat.strong_induction_on generalizing data with
  | _ n ih =>
    by_cases hd : data = []
    · subst hd
      simp only [List.length_nil] at hn
      rw [chunks_eq_nil, ← hn]
      simp [Nat.div_eq_of_lt (show size - 1 < size by omega)]
    · have hpos : 0 < data.length := List.length_pos.mpr hd
      rw [chunks_eq_cons size data (by omega) hd, List.length_cons,
        ih (data.drop size).length (by simp [List.length_drop]; omega)
          (data.drop size) rfl]
      rw [List.length_drop, hn]
      have h1 : n + size - 1 = size + (n - 1) := by omega
      rw [h1, Nat.add_div_left _ hs]
      rcases le_or_lt size n with hle | hlt
      · have h2 : n - size + size - 1 = n - 1 := by omega
        rw [h2]
      · have h2 : n - size + size - 1 = size - 1 := by omega
        rw [h2, Nat.div_eq_of_lt (show size - 1 < size by omega),
          Nat.div_eq_of_lt (show n - 1 < size by omega)]

/-- The fragment-send loop only appends to `sentDatagrams`: folded over a
list of `(index, fragment)` pairs it emits one headed datagram per pair
and leaves every other field alone. -/
theorem foldl_sendFragmentedStep (sequence total : Nat)
    (l : List (Nat × List Nat)) (s : Endpoint) :
    l.foldl (sendFragmentedStep sequence total) s =
      { s with sentDatagrams := s.sentDatagrams ++
          l.map (fun p => packHHIBB sequence (getAckData s.acks).1
            (getAckData s.acks).2 p.1 total ++ p.2) } := by
  induction l generalizing s with
  | nil => simp
  | cons p t ih =>
    rw [List.foldl_cons, ih]
    simp [sendFragmentedStep, List.append_assoc]

/-- C8: the claim says a fragment whose reported `total` differs from the
existing assembly's fails with `FragmentMismatch` and the assembly is
dropped.  The code never compares totals: after the assembly for
sequence 0 is created with `total = 2` by fragment `(id 0, total 2,
b"a")`, the mismatched fragment `(id 1, total 3, b"b")` is silently
stored into the 2-slot assembly, which thereby completes and delivers
`b"ab"` to the user callback — no error, no drop. -/
theorem C8_total_mismatch_not_rejected :
    (match processFragment (fun _ => true) 0 defaultEndpoint 0 [0, 2, 97] with
      | .ok st1 =>
        (processFragment (fun _ => true) 0 st1 0 [1, 3, 98]).map
          (fun (st : Endpoint) => (st.delivered, dictGet st.fragments 0))
      | .error e => .error e) = .ok ([[97, 98]], none) := rfl

/-- C5: the claim says a payload with `ceil(len / fragment_size) >
max_fragments` fails with `PayloadTooLarge` and nothing is transmitted or
recorded.  No such check exists: with the default configuration
(`fragment_size = 500`, `max_fragments = 16`) an 8500-byte payload needs
17 > 16 fragments, yet `send_packet` transmits all 17 fragment datagrams
and records the payload in the sent window. -/
theorem C5_oversize_payload_sent_without_check (data : List Nat)
    (h : data.length = 8500) :
    (sendPacket 0 defaultEndpoint data).sentDatagrams.length = 17 ∧
    (sendPacket 0 defaultEndpoint data).sentPackets.getD 0 none =
      some ⟨0, data, 0⟩ := by
  have hfrag : sendPacket 0 defaultEndpoint data =
      sendFragmented 0 defaultEndpoint data := by
    unfold sendPacket
    rw [if_pos]
    show defaultEndpoint.maxPacketSize < data.length
    rw [h, show defaultEndpoint.maxPacketSize = 1200 from rfl]
    norm_num
  rw [hfrag]
  simp only [sendFragmented, foldl_sendFragmentedStep]
  constructor
  · simp only [List.length_append, List.length_map, List.enum_length,
      show (nextSequence defaultEndpoint).2.fragmentSize = 500 from rfl,
      show (nextSequence defaultEndpoint).2.sentDatagrams =
        ([] : List (List Nat)) from rfl, List.length_nil]
    rw [chunks_length 500 (by norm_num), h]
  · simp only [show (nextSequence defaultEndpoint).1 = 0 from rfl,
      show (nextSequence defaultEndpoint).2.sentBufSize = 256 from rfl,
      show (nextSequence defaultEndpoint).2.sentPackets =
        List.replicate 256 (none : Option Packet) from rfl,
      Nat.zero_mod]
    rfl

/-- C5 witness: the 8500-byte payload `b"\x00" * 8500`. -/
theorem C5_oversize_payload_sent_without_check_witness :
    (List.replicate 8500 0).length = 8500 ∧
      ((sendPacket 0 defaultEndpoint (List.replicate 8500 0)).sentDatagrams.length
          = 17 ∧
        (sendPacket 0 defaultEndpoint
            (List.replicate 8500 0)).sentPackets.getD 0 none =
          some ⟨0, List.replicate 8500 0, 0⟩) :=
  ⟨List.length_replicate 8500 0,
    C5_oversize_payload_sent_without_check (List.replicate 8500 0)
      (List.length_replicate 8500 0)⟩

/-- Bit `d` of one `ack_bits |= ...` step: the step sets exactly the bit
`(ack − seq) mod 65536` when that distance is below 32. -/
theorem ackBitsStep_testBit (ack b seq d : Nat) (hd : d < 32) :
    ((ackBitsStep ack b seq).testBit d = true) ↔
      (b.testBit d = true ∨ (((ack : Int) - seq) % 65536) = (d : Int)) := by
  unfold ackBitsStep MAX_ACK_BITS SEQUENCE_MODULO
  simp only [Nat.cast_ofNat]
  by_cases hc : ((ack : Int) - seq) % (65536 : Int) < 32
  · rw [if_pos hc, Nat.testBit_or, Nat.shiftLeft_eq, one_mul,
      Nat.testBit_two_pow]
    have h32 : ((ack : Int) - seq) % (32 : Int) =
        (((ack : Int) - seq) % 65536) % 32 :=
      (Int.emod_emod_of_dvd _ (by norm_num)).symm
    simp only [Bool.or_eq_true, decide_eq_true_eq]
    constructor
    · rintro (hb | he)
      · exact Or.inl hb
      · exact Or.inr (by omega)
    · rintro (hb | he)
      · exact Or.inl hb
      · exact Or.inr (by omega)
  · rw [if_neg hc]
    have hne : ¬ ((((ack : Int) - seq) % 65536) = (d : Int)) := by omega
    simp [hne]

/-- Bit `d` of the whole `ack_bits` fold: set iff already set in the
accumulator or some list entry lies at wrap-distance `d` from `ack`. -/
theorem ackBits_foldl_testBit (ack : Nat) (l : List Nat) (b d : Nat)
    (hd : d < 32) :
    ((l.foldl (ackBitsStep ack) b).testBit d = true) ↔
      (b.testBit d = true ∨
        ∃ s ∈ l, (((ack : Int) - s) % 65536) = (d : Int)) := by
  induction l generalizing b with
  | nil => simp
  | cons s t ih =>
    rw [List.foldl_cons, ih, ackBitsStep_testBit ack b s d hd]
    constructor
    · rintro ((hb | hs) | ⟨x, hx, hxd⟩)
      · exact Or.inl hb
      · exact Or.inr ⟨s, List.mem_cons_self s t, hs⟩
      · exact Or.inr ⟨x, List.mem_cons_of_mem s hx, hxd⟩
    · rintro (hb | ⟨x, hx, hxd⟩)
      · exact Or.inl (Or.inl hb)
      · rcases List.mem_cons.mp hx with h1 | h1
        · exact Or.inl (Or.inr (h1 ▸ hxd))
        · exact Or.inr ⟨x, h1, hxd⟩

/-- C1 counterexample: the history `[5, 6, 6, …, 6]` (33 entries, legal
whenever `ack_buffer_size ≥ 33`).  Entry 5 sits at wrap-distance 1 from
`latest_ack = 6`, yet bit 1 of the produced `ack_bits` is clear, because
the loop breaks after scanning only the 32 most recent entries. -/
theorem C1_counterexample :
    (∀ s ∈ 5 :: List.replicate 32 6, s < 65536) ∧
    (5 :: List.replicate 32 6).length = 33 ∧
    (getAckData (5 :: List.replicate 32 6)).1 = 6 ∧
    (∃ s ∈ 5 :: List.replicate 32 6, (((6 : Int) - s) % 65536) = 1) ∧
    (getAckData (5 :: List.replicate 32 6)).2.testBit 1 = false := by
  refine ⟨by decide, by decide, by decide, ⟨5, by simp, by decide⟩, by decide⟩

/-- C1 (amended): over any ack history with entries in `[0, 65536)`,
`_get_ack_data` returns `(0, 0)` on an empty history; otherwise its first
component is the most recently appended sequence, and for every `d < 32`
bit `d` of `ack_bits` is set iff some entry **among the 32 most recently
appended** lies at wrap-distance `d` from `latest_ack`.  When the history
holds at most 32 entries (in particular for every reachable history with
the default `ack_buffer_size = 32`) the quantifier ranges over the whole
history, which is the claim as stated. -/
theorem C1_ack_data (acks : List Nat) (hbound : ∀ s ∈ acks, s < 65536) :
    (acks = [] → getAckData acks = (0, 0)) ∧
    (∀ a, acks.getLast? = some a →
      (getAckData acks).1 = a ∧
      (∀ d, d < 32 →
        ((getAckData acks).2.testBit d ↔
          ∃ s ∈ acks.reverse.take 32, (((a : Int) - s) % 65536) = d)) ∧
      (acks.length ≤ 32 →
        ∀ d, d < 32 →
          ((getAckData acks).2.testBit d ↔
            ∃ s ∈ acks, (((a : Int) - s) % 65536) = d))) := by
  constructor
  · intro h
    subst h
    rfl
  · intro a ha
    have hform : getAckData acks =
        (a, (acks.reverse.take MAX_ACK_BITS).foldl (ackBitsStep a) 0) := by
      unfold getAckData
      rw [ha]
    have hkey : ∀ d, d < 32 →
        ((getAckData acks).2.testBit d ↔
          ∃ s ∈ acks.reverse.take 32, (((a : Int) - s) % 65536) = d) := by
      intro d hd
      rw [hform]
      show ((acks.reverse.take MAX_ACK_BITS).foldl (ackBitsStep a) 0).testBit d
        ↔ _
      rw [ackBits_foldl_testBit a _ 0 d hd]
      simp [MAX_ACK_BITS]
    refine ⟨by rw [hform], hkey, ?_⟩
    intro hlen d hd
    rw [hkey d hd]
    have htake : acks.reverse.take 32 = acks.reverse :=
      List.take_of_length_le (by simpa using hlen)
    rw [htake]
    constructor
    · rintro ⟨s, hs, hsd⟩
      exact ⟨s, List.mem_reverse.mp hs, hsd⟩
    · rintro ⟨s, hs, hsd⟩
      exact ⟨s, List.mem_reverse.mpr hs, hsd⟩

/-- C1 witness: the history of spec scenario S6 (`{0,1,2,4,6}` received in
order). -/
theorem C1_ack_data_witness :
    (∀ s ∈ [0, 1, 2, 4, 6], s < 65536) ∧
    (([0, 1, 2, 4, 6] : List Nat) = [] →
      getAckData [0, 1, 2, 4, 6] = (0, 0)) ∧
    (∀ a, ([0, 1, 2, 4, 6] : List Nat).getLast? = some a →
      (getAckData [0, 1, 2, 4, 6]).1 = a ∧
      (∀ d, d < 32 →
        ((getAckData [0, 1, 2, 4, 6]).2.testBit d ↔
          ∃ s ∈ ([0, 1, 2, 4, 6] : List Nat).reverse.take 32,
            (((a : Int) - s) % 65536) = d)) ∧
      (([0, 1, 2, 4, 6] : List Nat).length ≤ 32 →
        ∀ d, d < 32 →
          ((getAckData [0, 1, 2, 4, 6]).2.testBit d ↔
            ∃ s ∈ ([0, 1, 2, 4, 6] : List Nat),
              (((a : Int) - s) % 65536) = d))) :=
  ⟨by decide, (C1_ack_data [0, 1, 2, 4, 6] (by decide)).1,
    (C1_ack_data [0, 1, 2, 4, 6] (by decide)).2⟩

/-- `getD` after `set` at a different index. -/
theorem cb_getD_set_ne {α : Type} (l : List α) (a : α) {i j : Nat}
    (hij : i ≠ j) (d : α) : (l.set i a).getD j d = l.getD j d := by
  rw [List.getD_eq_get?, List.getD_eq_get?, List.get?_set_ne a l hij]

/-- `getD` after `set` at the same (in-range) index. -/
theorem cb_getD_set_self {α : Type} (l : List α) (a : α) {i : Nat}
    (hi : i < l.length) (d : α) : (l.set i a).getD i d = a := by
  rw [List.getD_eq_get?, List.get?_set_eq_of_lt a hi]
  rfl

/-- Two in-range offsets from the same base are distinct modulo the ring
size. -/
theorem mod_add_ne {size t i j : Nat} (hs : 0 < size) (hi : i < size)
    (hj : j < size) (hij : i ≠ j) :
    (t + i) % size ≠ (t + j) % size := by
  intro hEq
  have hm : Nat.ModEq size i j := Nat.ModEq.add_left_cancel' t hEq
  have h2 : i % size = j % size := hm
  rw [Nat.mod_eq_of_lt hi, Nat.mod_eq_of_lt hj] at h2
  exact hij h2

/-- A freshly constructed buffer of positive size represents `[]`. -/
theorem CBRepr_init (T : Type) (n : Nat) (hn : 0 < n) :
    CBRepr (CircularBuffer.init T n) [] := by
  refine ⟨by simp [CircularBuffer.init], hn, rfl, by simp, hn,
    by simp [CircularBuffer.init], ?_⟩
  intro i hi
  exact absurd hi (by simp)

/-- `push` refines list append, with the oldest element dropped when the
buffer is full. -/
theorem CBRepr_push {T : Type} {s : CircularBuffer T} {l : List T}
    (h : CBRepr s l) (x : T) :
    CBRepr (s.push x)
      (if s.count < s.size then l ++ [x] else l.drop 1 ++ [x]) := by
  obtain ⟨hbl, hsz, hcnt, hle, htl, hhd, hget⟩ := h
  have hheadlt : s.head < s.size := by
    rw [hhd]
    exact Nat.mod_lt _ hsz
  by_cases hlt : s.count < s.size
  · rw [if_pos hlt]
    simp only [CircularBuffer.push, hlt, if_true]
    refine ⟨by rw [List.length_set]; exact hbl, hsz, by simp [hcnt],
      by simp; omega, htl, ?_, ?_⟩
    · rw [hhd, Nat.mod_add_mod, Nat.add_assoc]
    · intro i hi
      simp only [List.length_append, List.length_singleton] at hi
      rcases Nat.lt_succ_iff_lt_or_eq.mp hi with hilt | hieq
      · have hne : s.head ≠ (s.tail + i) % s.size := by
          rw [hhd]
          exact mod_add_ne hsz hlt (by omega) (by omega)
        rw [cb_getD_set_ne _ _ hne, hget i hilt, List.get?_append hilt]
      · subst hieq
        have hidx : (s.tail + l.length) % s.size = s.head := by
          rw [hhd, hcnt]
        rw [hidx, cb_getD_set_self _ _ (by rw [hbl]; exact hheadlt),
          List.get?_concat_length]
  · rw [if_neg hlt]
    have hlen : l.length = s.size := by omega
    have hcsz : s.count = s.size := by omega
    simp only [CircularBuffer.push, hlt, if_false]
    have hht : s.head = s.tail := by
      rw [hhd, hcsz, Nat.add_mod_right, Nat.mod_eq_of_lt htl]
    refine ⟨by rw [List.length_set]; exact hbl, hsz, by simp; omega,
      by simp; omega, Nat.mod_lt _ hsz, ?_, ?_⟩
    · rw [hht, Nat.mod_add_mod, hcsz, Nat.add_mod_right]
    · intro i hi
      simp only [List.length_append, List.length_singleton,
        List.length_drop] at hi
      have hi2 : i < s.size := by omega
      rw [Nat.mod_add_mod, Nat.add_assoc]
      rcases Nat.lt_or_ge i (l.length - 1) with hilt | hige
      · have h0 : (s.tail + 0) % s.size ≠ (s.tail + (1 + i)) % s.size :=
          mod_add_ne hsz (by omega) (by omega) (by omega)
        have hz : (s.tail + 0) % s.size = s.tail := by
          rw [Nat.add_zero, Nat.mod_eq_of_lt htl]
        rw [hz] at h0
        have hne : s.head ≠ (s.tail + (1 + i)) % s.size := by
          rw [hht]
          exact h0
        rw [cb_getD_set_ne _ _ hne, hget (1 + i) (by omega),
          List.get?_append (by rw [List.length_drop]; omega),
          List.get?_drop]
      · have hieq : i = l.length - 1 := by omega
        subst hieq
        have hone : 1 + (l.length - 1) = s.size := by omega
        rw [hone, Nat.add_mod_right, Nat.mod_eq_of_lt htl, ← hht,
          cb_getD_set_self _ _ (by rw [hbl]; exact hheadlt)]
        have hdl : (l.drop 1).length = l.length - 1 := by
          rw [List.length_drop]
        rw [← hdl, List.get?_concat_length]

/-- `pop` refines taking the head of the abstract list. -/
theorem CBRepr_pop {T : Type} {s : CircularBuffer T} {l : List T}
    (h : CBRepr s l) :
    (s.pop).1 = l.head? ∧ CBRepr (s.pop).2 (l.drop 1) := by
  obtain ⟨hbl, hsz, hcnt, hle, htl, hhd, hget⟩ := h
  cases l with
  | nil =>
    have hc0 : s.count = 0 := by simpa using hcnt
    unfold CircularBuffer.pop
    rw [if_pos hc0]
    exact ⟨rfl, hbl, hsz, hcnt, hle, htl, hhd, hget⟩
  | cons y t =>
    have hc : s.count = t.length + 1 := by simpa using hcnt
    have hcpos : ¬ s.count = 0 := by omega
    unfold CircularBuffer.pop
    rw [if_neg hcpos]
    constructor
    · have h0 := hget 0 (by simp)
      rw [show (s.tail + 0) % s.size = s.tail by
        rw [Nat.add_zero, Nat.mod_eq_of_lt htl]] at h0
      simpa using h0
    · refine ⟨hbl, hsz, by simp; omega, by simp at hle ⊢; omega,
        Nat.mod_lt _ hsz, ?_, ?_⟩
      · rw [hhd, Nat.mod_add_mod,
          show s.tail + 1 + (s.count - 1) = s.tail + s.count by omega]
      · intro i hi
        simp only [List.drop_succ_cons, List.drop_zero] at hi ⊢
        rw [Nat.mod_add_mod, Nat.add_assoc,
          hget (1 + i) (by simp; omega)]
        simp [List.get?_cons_succ,
          show 1 + i = i + 1 by omega]

/-- Iteration (`__iter__` over `__getitem__`) yields the retained items
oldest-first. -/
theorem CB_toList {T : Type} {s : CircularBuffer T} {l : List T}
    (h : CBRepr s l) : s.toList = l.map some := by
  obtain ⟨hbl, hsz, hcnt, hle, htl, hhd, hget⟩ := h
  unfold CircularBuffer.toList
  rw [hcnt]
  apply List.ext_get?
  intro n
  by_cases hn : n < l.length
  · rw [List.get?_map, List.get?_map, List.get?_range hn]
    rcases hx : l.get? n with _ | v
    · exact absurd (List.get?_eq_none.mp hx) (by omega)
    · simp only [Option.map_some']
      rw [hget n hn, hx]
  · rw [List.get?_eq_none.mpr (by simp; omega),
      List.get?_eq_none.mpr (by simp; omega)]

/-- C10: over every reachable state of `CircularBuffer` — captured by the
abstraction `CBRepr s l`, established for the initial state and preserved
by both operations — `count` equals the number of retained items and
never exceeds `size`; `push` appends, evicting exactly the oldest item
when full; `pop` returns the oldest item (or `None` when empty) and drops
it; and iteration yields the retained items oldest-first. -/
theorem C10_circular_buffer {T : Type} (s : CircularBuffer T) (l : List T)
    (x : T) (h : CBRepr s l) :
    (∀ n, 0 < n → CBRepr (CircularBuffer.init T n) []) ∧
    s.count = l.length ∧ s.count ≤ s.size ∧
    CBRepr (s.push x)
      (if s.count < s.size then l ++ [x] else l.drop 1 ++ [x]) ∧
    (s.pop).1 = l.head? ∧ CBRepr (s.pop).2 (l.drop 1) ∧
    s.toList = l.map some :=
  ⟨fun n hn => CBRepr_init T n hn, h.2.2.1,
    by obtain ⟨-, -, hc, hl, -⟩ := h; omega,
    CBRepr_push h x, (CBRepr_pop h).1, (CBRepr_pop h).2, CB_toList h⟩

/-- C10 witness: a 2-slot buffer holding one item. -/
theorem C10_circular_buffer_witness :
    CBRepr (⟨[some 7, none], 2, 1, 0, 1⟩ : CircularBuffer Nat) [7] ∧
    ((∀ n, 0 < n → CBRepr (CircularBuffer.init Nat n) []) ∧
      (⟨[some 7, none], 2, 1, 0, 1⟩ : CircularBuffer Nat).count = [7].length ∧
      (⟨[some 7, none], 2, 1, 0, 1⟩ : CircularBuffer Nat).count ≤
        (⟨[some 7, none], 2, 1, 0, 1⟩ : CircularBuffer Nat).size ∧
      CBRepr ((⟨[some 7, none], 2, 1, 0, 1⟩ : CircularBuffer Nat).push 9)
        (if (⟨[some 7, none], 2, 1, 0, 1⟩ : CircularBuffer Nat).count <
            (⟨[some 7, none], 2, 1, 0, 1⟩ : CircularBuffer Nat).size then
          [7] ++ [9] else ([7] : List Nat).drop 1 ++ [9]) ∧
      ((⟨[some 7, none], 2, 1, 0, 1⟩ : CircularBuffer Nat).pop).1 =
        ([7] : List Nat).head? ∧
      CBRepr ((⟨[some 7, none], 2, 1, 0, 1⟩ : CircularBuffer Nat).pop).2
        (([7] : List Nat).drop 1) ∧
      (⟨[some 7, none], 2, 1, 0, 1⟩ : CircularBuffer Nat).toList =
        ([7] : List Nat).map some) :=
  ⟨by decide,
    C10_circular_buffer (⟨[some 7, none], 2, 1, 0, 1⟩ : CircularBuffer Nat)
      [7] 9 (by decide)⟩

/-- Empty dict lookup. -/
theorem dictGet_nil (k : Nat) : dictGet [] k = none := rfl

/-- Singleton dict lookup at its own key. -/
theorem dictGet_singleton (k : Nat) (v : List (Option (List Nat))) :
    dictGet [(k, v)] k = some v := by
  simp [dictGet]

/-- Writing into an empty dict. -/
theorem dictSet_nil (k : Nat) (v : List (Option (List Nat))) :
    dictSet [] k v = [(k, v)] := by
  simp [dictSet]

/-- Overwriting a singleton dict at its own key. -/
theorem dictSet_singleton (k : Nat) (w v : List (Option (List Nat))) :
    dictSet [(k, w)] k v = [(k, v)] := by
  simp [dictSet]

/-- Deleting the only key of a singleton dict. -/
theorem dictErase_singleton (k : Nat) (v : List (Option (List Nat))) :
    dictErase [(k, v)] k = [] := by
  simp [dictErase]

/-- An assembly with no fragments stored is all-`none` — what
`_process_fragment` creates on first contact. -/
theorem asmOf_nil (frags : List (List Nat)) :
    asmOf frags [] = List.replicate frags.length none := by
  unfold asmOf
  rw [show (fun j => if j ∈ ([] : List Nat) then some (frags.getD j [])
    else none) = (fun _ => (none : Option (List Nat))) from by
      funext j; simp]
  rw [List.map_const', List.length_range]

/-- Assemblies keep the fragment count as their length. -/
theorem asmOf_length (frags : List (List Nat)) (S : List Nat) :
    (asmOf frags S).length = frags.length := by
  simp [asmOf]

/-- Storing fragment `d` into an assembly adds `d` to the stored set. -/
theorem asmOf_set (frags : List (List Nat)) (S : List Nat) {d : Nat}
    (hd : d < frags.length) :
    (asmOf frags S).set d (some (frags.getD d [])) =
      asmOf frags (S ++ [d]) := by
  apply List.ext_get?
  intro j
  by_cases hj : j < frags.length
  · by_cases hjd : j = d
    · subst hjd
      rw [List.get?_set_eq_of_lt _ (by rw [asmOf_length]; exact hj)]
      unfold asmOf
      rw [List.get?_map, List.get?_range hj]
      simp [List.mem_append]
    · rw [List.get?_set_ne _ _ (fun h => hjd h.symm)]
      unfold asmOf
      rw [List.get?_map, List.get?_map, List.get?_range hj]
      simp only [Option.map_some']
      by_cases hjS : j ∈ S
      · simp [hjS, List.mem_append]
      · simp [hjS, hjd, List.mem_append]
  · rw [List.get?_eq_none.mpr (by rw [List.length_set, asmOf_length]; omega),
      List.get?_eq_none.mpr (by rw [asmOf_length]; omega)]

/-- `all(self.fragments[sequence])` over an assembly of nonempty
fragments holds exactly when every fragment id has been stored. -/
theorem asmOf_all (frags : List (List Nat)) (S : List Nat)
    (hne : ∀ f ∈ frags, f ≠ []) :
    ((asmOf frags S).all fragTruthy = true) ↔
      ∀ j, j < frags.length → j ∈ S := by
  unfold asmOf
  rw [List.all_eq_true]
  constructor
  · intro h j hj
    have hx := h _ (List.mem_map_of_mem _ (List.mem_range.mpr hj))
    by_contra hjS
    rw [if_neg hjS] at hx
    exact absurd hx (by simp [fragTruthy])
  · intro h o ho
    rcases List.mem_map.mp ho with ⟨j, hjr, rfl⟩
    have hj := List.mem_range.mp hjr
    rw [if_pos (h j hj)]
    have hmem : frags.getD j [] ∈ frags := by
      rw [List.getD_eq_get?]
      rcases hx : frags.get? j with _ | v
      · exact absurd (List.get?_eq_none.mp hx) (by omega)
      · simpa using List.get?_mem hx
    have hnonempty := hne _ hmem
    rw [List.getD_eq_getElem?_getD] at hnonempty
    simp [fragTruthy, hnonempty]

/-- A fully stored assembly is the fragment list itself. -/
theorem asmOf_full (frags : List (List Nat)) (S : List Nat)
    (hfull : ∀ j, j < frags.length → j ∈ S) :
    asmOf frags S = frags.map some := by
  apply List.ext_get?
  intro j
  by_cases hj : j < frags.length
  · unfold asmOf
    rw [List.get?_map, List.get?_map, List.get?_range hj]
    rcases hx : frags.get? j with _ | v
    · exact absurd (List.get?_eq_none.mp hx) (by omega)
    · simp only [Option.map_some']
      rw [if_pos (hfull j hj)]
      rw [List.getD_eq_get?, hx]
      rfl
  · rw [List.get?_eq_none.mpr (by simp [asmOf]; omega),
      List.get?_eq_none.mpr (by simp; omega)]

/-- The `b"".join(...)` fold of `_process_fragment` over a complete
assembly concatenates the fragments in id order. -/
theorem foldr_map_some (frags : List (List Nat)) :
    (frags.map some).foldr (fun o acc => o.getD [] ++ acc) [] =
      frags.flatten := by
  induction frags with
  | nil => rfl
  | cons f t ih => simp [ih]

/-- Reassembling the slices of `chunks` in order gives back the data. -/
theorem chunks_flatten (size : Nat) (hs : 0 < size) (data : List Nat) :
    (chunks size data).flatten = data := by
  generalize hn : data.length = n
  induction n using Nat.strong_induction_on generalizing data with
  | _ n ih =>
    by_cases hd : data = []
    · subst hd
      rw [chunks_eq_nil]
      rfl
    · have hpos : 0 < data.length := List.length_pos.mpr hd
      rw [chunks_eq_cons size data (by omega) hd, List.flatten_cons,
        ih (data.drop size).length (by simp [List.length_drop]; omega) _ rfl,
        List.take_append_drop]

/-- With a positive slice size, every slice `chunks` produces is
nonempty. -/
theorem chunks_ne_nil (size : Nat) (hs : 0 < size) (data : List Nat) :
    ∀ f ∈ chunks size data, f ≠ [] := by
  generalize hn : data.length = n
  induction n using Nat.strong_induction_on generalizing data with
  | _ n ih =>
    by_cases hd : data = []
    · subst hd
      rw [chunks_eq_nil]
      intro f hf
      exact absurd hf (by simp)
    · rw [chunks_eq_cons size data (by omega) hd]
      intro f hf
      rcases List.mem_cons.mp hf with h1 | h1
      · subst h1
        intro hc
        rcases List.take_eq_nil_iff.mp hc with h | h
        · omega
        · exact hd h
      · have hpos : 0 < data.length := List.length_pos.mpr hd
        exact ih (data.drop size).length
          (by simp [List.length_drop]; omega) _ rfl f h1

/-- A nonempty payload yields at least one slice. -/
theorem chunks_length_pos (size : Nat) (hs : 0 < size) (data : List Nat)
    (hd : data ≠ []) : 0 < (chunks size data).length := by
  rw [chunks_eq_cons size data (by omega) hd]
  simp

/-- `_process_packet` always logs exactly one callback invocation. -/
theorem processPacket_delivered (cb : List Nat → Bool) (now : ℚ)
    (st : Endpoint) (sequence : Nat) (data : List Nat) :
    (processPacket cb now st sequence data).delivered =
      st.delivered ++ [data] := by
  unfold processPacket
  by_cases hc : cb data <;> simp [hc]

/-- `_process_packet` never touches the fragment table. -/
theorem processPacket_fragments (cb : List Nat → Bool) (now : ℚ)
    (st : Endpoint) (sequence : Nat) (data : List Nat) :
    (processPacket cb now st sequence data).fragments = st.fragments := by
  unfold processPacket
  by_cases hc : cb data <;> simp [hc]

/-- One `_process_fragment` call on the `d`-th produced fragment, with the
assembly state abstracted by the set `S` of already stored ids: completes
and delivers exactly when `S ∪ {d}` covers every id, otherwise just
records `d`. -/
theorem processFragment_mkFrag (cb : List Nat → Bool) (now : ℚ)
    (sequence : Nat) (frags : List (List Nat)) (S : List Nat)
    (st : Endpoint) (d : Nat) (hd : d < frags.length)
    (hne : ∀ f ∈ frags, f ≠ [])
    (hdict : st.fragments =
      if S = [] then [] else [(sequence, asmOf frags S)]) :
    processFragment cb now st sequence (mkFrag frags d) =
      if ∀ j, j < frags.length → j ∈ S ++ [d] then
        .ok (processPacket cb now { st with fragments := [] } sequence
          frags.flatten)
      else
        .ok { st with
          fragments := [(sequence, asmOf frags (S ++ [d]))] } := by
  have hassembly :
      (match dictGet st.fragments sequence with
        | none => List.replicate frags.length none
        | some a => a) = asmOf frags S := by
    by_cases hS : S = []
    · rw [hdict, if_pos hS, hS, asmOf_nil, dictGet_nil]
    · rw [hdict, if_neg hS, dictGet_singleton]
  have hdset : dictSet st.fragments sequence (asmOf frags (S ++ [d])) =
      [(sequence, asmOf frags (S ++ [d]))] := by
    by_cases hS : S = []
    · rw [hdict, if_pos hS, dictSet_nil]
    · rw [hdict, if_neg hS, dictSet_singleton]
  unfold processFragment
  rw [if_neg (by simp [mkFrag])]
  simp only [mkFrag, List.getD_cons_zero, List.getD_cons_succ,
    List.drop_succ_cons, List.drop_zero, hassembly]
  rw [if_neg (by rw [asmOf_length]; omega), asmOf_set frags S hd, hdset]
  by_cases hfull : ∀ j, j < frags.length → j ∈ S ++ [d]
  · rw [if_pos ((asmOf_all frags (S ++ [d]) hne).mpr hfull), if_pos hfull,
      asmOf_full frags (S ++ [d]) hfull, foldr_map_some, dictErase_singleton]
  · rw [if_neg (fun hc => hfull ((asmOf_all frags (S ++ [d]) hne).mp hc)),
      if_neg hfull]

/-- Feeding the not-yet-seen fragment ids `l` (with the ids `S` already
stored), where `S ++ l` enumerates every id exactly once, ends with
exactly one delivery of the reassembled payload and an empty fragment
table. -/
theorem feed_go (cb : List Nat → Bool) (now : ℚ) (sequence : Nat)
    (frags : List (List Nat)) (hne : ∀ f ∈ frags, f ≠ [])
    (l : List Nat) :
    ∀ (S : List Nat) (st : Endpoint),
      (S ++ l).Perm (List.range frags.length) →
      l ≠ [] →
      st.fragments = (if S = [] then [] else [(sequence, asmOf frags S)]) →
      ∃ st' : Endpoint,
        feedFragments cb now st sequence (l.map (mkFrag frags)) = .ok st' ∧
        st'.delivered = st.delivered ++ [frags.flatten] ∧
        st'.fragments = [] := by
  induction l with
  | nil =>
    intro S st _ hl _
    exact absurd rfl hl
  | cons d rest ih =>
    intro S st hperm hl hdict
    have hd : d < frags.length :=
      List.mem_range.mp (hperm.subset (by simp))
    have hnodup : (S ++ d :: rest).Nodup :=
      hperm.nodup_iff.mpr (List.nodup_range _)
    simp only [List.map_cons, feedFragments]
    rw [processFragment_mkFrag cb now sequence frags S st d hd hne hdict]
    by_cases hfull : ∀ j, j < frags.length → j ∈ S ++ [d]
    · rw [if_pos hfull]
      have hrest : rest = [] := by
        by_contra hne2
        rcases List.exists_mem_of_ne_nil rest hne2 with ⟨r, hr⟩
        have hrlt : r < frags.length :=
          List.mem_range.mp (hperm.subset (by simp [hr]))
        have hrS : r ∈ S ∨ r = d := by simpa using hfull r hrlt
        rcases hrS with h1 | h1
        · exact (List.nodup_append.mp hnodup).2.2 h1 (by simp [hr])
        · have hnd := (List.nodup_append.mp hnodup).2.1
          rw [List.nodup_cons] at hnd
          exact hnd.1 (h1 ▸ hr)
      subst hrest
      refine ⟨processPacket cb now { st with fragments := [] } sequence
        frags.flatten, by simp [feedFragments], ?_, ?_⟩
      · rw [processPacket_delivered]
      · rw [processPacket_fragments]
    · rw [if_neg hfull]
      have hrest : rest ≠ [] := by
        intro hr
        subst hr
        exact hfull (fun j hj =>
          hperm.mem_iff.mpr (List.mem_range.mpr hj))
      have hperm2 : ((S ++ [d]) ++ rest).Perm (List.range frags.length) := by
        rw [List.append_assoc, List.singleton_append]
        exact hperm
      obtain ⟨st', h1, h2, h3⟩ := ih (S ++ [d])
        { st with fragments := [(sequence, asmOf frags (S ++ [d]))] }
        hperm2 hrest (by simp)
      exact ⟨st', h1, h2, h3⟩

/-- C4 (amended): for every payload with
`0 < len ≤ max_fragments · fragment_size`, feeding the produced fragments
into the receive-side fragment processor in any order **with each
fragment delivered exactly once** delivers exactly the original payload,
exactly once (duplicates are not harmless in general: re-delivering a
full fragment set re-assembles and re-delivers, see the counterexample).
The second conjunct ties the fed bytes to the datagrams
`_send_fragmented` actually produces: stripped of the 8-byte header, the
`i`-th datagram is exactly `mkFrag (chunks fragment_size payload) i`. -/
theorem C4_fragmentation_round_trip (p : List Nat)
    (fragmentSize maxFragments : Nat) (perm : List Nat)
    (cb : List Nat → Bool) (now : ℚ) (sequence : Nat) (st : Endpoint)
    (hsz : 0 < fragmentSize) (hp : p ≠ [])
    (hbound : p.length ≤ maxFragments * fragmentSize)
    (hperm : perm.Perm (List.range (chunks fragmentSize p).length))
    (hfr : st.fragments = []) :
    (∃ st' : Endpoint,
      feedFragments cb now st sequence
        (perm.map (mkFrag (chunks fragmentSize p))) = .ok st' ∧
      st'.delivered = st.delivered ++ [p] ∧
      st'.fragments = []) ∧
    (∀ i, i < (chunks fragmentSize p).length →
      ((sendFragmented now
          { st with fragmentSize := fragmentSize, sentDatagrams := [] }
          p).sentDatagrams.getD i []).drop 8 =
        mkFrag (chunks fragmentSize p) i) := by
  constructor
  · have hnempty : perm ≠ [] := by
      intro h
      subst h
      have hlen := hperm.length_eq
      have hpos := chunks_length_pos fragmentSize hsz p hp
      simp at hlen
      omega
    obtain ⟨st', h1, h2, h3⟩ := feed_go cb now sequence
      (chunks fragmentSize p) (chunks_ne_nil fragmentSize hsz p) perm [] st
      (by simpa using hperm) hnempty (by simp [hfr])
    exact ⟨st', h1, by rw [h2, chunks_flatten fragmentSize hsz p], h3⟩
  · intro i hi
    simp only [sendFragmented, foldl_sendFragmentedStep, nextSequence]
    rcases hx : (chunks fragmentSize p).get? i with _ | c
    · exact absurd (List.get?_eq_none.mp hx) (by omega)
    · rw [List.getD_eq_get?, List.nil_append, List.get?_map, List.get?_enum,
        hx]
      simp only [Option.map_some', Option.getD_some]
      show (packHHIBB _ _ _ i _ ++ c).drop 8 = _
      unfold packHHIBB packHHI mkFrag
      simp only [List.cons_append, List.nil_append, List.drop_succ_cons,
        List.drop_zero]
      rw [List.getD_eq_get?, hx]
      rfl

/-- C4 witness: the 3-byte payload `b"abc"` split at `fragment_size = 2`
into two fragments, fed in reversed order. -/
theorem C4_fragmentation_round_trip_witness :
    0 < 2 ∧ ([97, 98, 99] : List Nat) ≠ [] ∧
    ([97, 98, 99] : List Nat).length ≤ 2 * 2 ∧
    ([1, 0] : List Nat).Perm (List.range (chunks 2 [97, 98, 99]).length) ∧
    defaultEndpoint.fragments = [] ∧
    ((∃ st' : Endpoint,
      feedFragments (fun _ => true) 0 defaultEndpoint 7
        (([1, 0] : List Nat).map (mkFrag (chunks 2 [97, 98, 99]))) =
          .ok st' ∧
      st'.delivered = defaultEndpoint.delivered ++ [[97, 98, 99]] ∧
      st'.fragments = []) ∧
    (∀ i, i < (chunks 2 [97, 98, 99]).length →
      ((sendFragmented 0
          { defaultEndpoint with fragmentSize := 2, sentDatagrams := [] }
          [97, 98, 99]).sentDatagrams.getD i []).drop 8 =
        mkFrag (chunks 2 [97, 98, 99]) i)) := by
  have hch : (chunks 2 [97, 98, 99]).length = 2 := by
    rw [chunks_length 2 (by norm_num)]
    rfl
  refine ⟨by norm_num, by simp, by simp, ?_, rfl, ?_⟩
  · rw [hch]
    decide
  · exact C4_fragmentation_round_trip [97, 98, 99] 2 2 [1, 0]
      (fun _ => true) 0 7 defaultEndpoint (by norm_num) (by simp) (by simp)
      (by rw [hch]; decide) rfl

/-- C4 counterexample: the claim as stated allows arbitrary duplicates,
but feeding the two fragments of `b"abc"` (split at size 2) twice makes
the assembly complete twice: the callback fires twice with the same
payload instead of exactly once. -/
theorem C4_counterexample :
    (List.range 2).map (mkFrag (chunks 2 [97, 98, 99])) =
        [[0, 2, 97, 98], [1, 2, 99]] ∧
    (feedFragments (fun _ => true) 0 defaultEndpoint 7
        [[0, 2, 97, 98], [1, 2, 99], [0, 2, 97, 98], [1, 2, 99]]).map
      (fun st : Endpoint => st.delivered) =
        .ok [[97, 98, 99], [97, 98, 99]] := by
  have e1 : chunks 2 [97, 98, 99] =
      List.take 2 [97, 98, 99] :: chunks 2 (List.drop 2 [97, 98, 99]) :=
    chunks_eq_cons 2 [97, 98, 99] (by norm_num) (by simp)
  have e2 : List.drop 2 [97, 98, 99] = [99] := rfl
  rw [e2] at e1
  have e3 : chunks 2 [99] =
      List.take 2 [99] :: chunks 2 (List.drop 2 [99]) :=
    chunks_eq_cons 2 [99] (by norm_num) (by simp)
  have e4 : List.drop 2 [99] = ([] : List Nat) := rfl
  rw [e4, chunks_eq_nil] at e3
  have hch : chunks 2 [97, 98, 99] = [[97, 98], [99]] := by
    rw [e1, e3]
    rfl
  constructor
  · rw [hch]
    rfl
  · rfl

end Repyable
